import Mathlib

/-!
Verification of the in-memory user CRUD store (tupak_API).

Shallow embedding of the user CRUD service in `src/routers/api.py`.
The Python module-level state is a `Dict[int, User]` named `users`
(insertion-ordered, as Python dicts are) together with an integer counter
`next_id` starting at 1.  We model the dict as an association list kept in
insertion order and each HTTP handler as a pure function on the state that
returns `Except ApiError`, mirroring the `raise HTTPException` paths.
-/

/-- The `User` pydantic model of `schemas.py`: id, name, email. -/
structure User where
  id : Nat
  name : String
  email : String
deriving DecidableEq, Repr

/-- The `UserCreate` request body: required name and email. -/
structure UserCreate where
  name : String
  email : String
deriving DecidableEq, Repr

/-- The `UserUpdate` request body: both fields optional (`None` = absent). -/
structure UserUpdate where
  name : Option String
  email : Option String
deriving DecidableEq, Repr

/-- The two domain errors raised by the handlers:
`HTTPException(404, "User not found")` and
`HTTPException(400, "Email already exists")`. -/
inductive ApiError where
  | notFound
  | duplicateEmail
deriving DecidableEq, Repr

/-- The Python dict `users : Dict[int, User]`, as an insertion-ordered
association list (Python dicts preserve insertion order). -/
abbrev Store := List (Nat × User)

/-- `users.get(k)`: value at the key, if present. -/
def dictGet : Store → Nat → Option User
  | [], _ => none
  | (k', v) :: t, k => if k' == k then some v else dictGet t k

/-- `users[k] = v`: overwrite the value in place if the key is present
(keeping its position, as Python dicts do), otherwise append at the end. -/
def dictSet : Store → Nat → User → Store
  | [], k, v => [(k, v)]
  | (k', v') :: t, k, v =>
      if k' == k then (k, v) :: t else (k', v') :: dictSet t k v

/-- `del users[k]`: remove the entry with that key. -/
def dictDel : Store → Nat → Store
  | [], _ => []
  | (k', v) :: t, k => if k' == k then t else (k', v) :: dictDel t k

/-- `k in users`. -/
def dictContains : Store → Nat → Bool
  | [], _ => false
  | (k', _) :: t, k => k' == k || dictContains t k

/-- `users.values()`, in insertion order. -/
def dictValues (d : Store) : List User := d.map Prod.snd

/-- The module-level mutable state of `database`: the record map and the
next-id counter. -/
structure DB where
  users : Store
  next_id : Nat
deriving DecidableEq, Repr

/-- The startup state: empty map, counter at 1. -/
def initDB : DB := ⟨[], 1⟩

/-- `create_user` (POST /users).  Fails with 400 if any stored record has
the supplied email; otherwise stores `User(id=next_id, ...)` under key
`next_id`, increments the counter and returns the new record. -/
def create_user (db : DB) (payload : UserCreate) : Except ApiError (User × DB) :=
  if (dictValues db.users).any (fun u => u.email == payload.email) then
    .error .duplicateEmail
  else
    let user : User := ⟨db.next_id, payload.name, payload.email⟩
    .ok (user, ⟨dictSet db.users db.next_id user, db.next_id + 1⟩)

/-- `list_users` (GET /users): `list(users.values())`. -/
def list_users (db : DB) : List User := dictValues db.users

/-- `get_user` (GET /users/{id}): 404 when the key is absent. -/
def get_user (db : DB) (user_id : Nat) : Except ApiError User :=
  match dictGet db.users user_id with
  | none => .error .notFound
  | some u => .ok u

/-- `update_user` (PUT /users/{id}).  404 when the key is absent; absent
payload fields inherit the stored values; 400 when the resolved email
differs from the current one and some stored record already has it;
otherwise overwrites the record in place and returns it. -/
def update_user (db : DB) (user_id : Nat) (payload : UserUpdate) :
    Except ApiError (User × DB) :=
  match dictGet db.users user_id with
  | none => .error .notFound
  | some user =>
      let new_name := payload.name.getD user.name
      let new_email := payload.email.getD user.email
      if new_email != user.email
          && (dictValues db.users).any (fun u => u.email == new_email) then
        .error .duplicateEmail
      else
        let updated : User := ⟨user_id, new_name, new_email⟩
        .ok (updated, ⟨dictSet db.users user_id updated, db.next_id⟩)

/-- `delete_user` (DELETE /users/{id}): 404 when the key is absent,
otherwise removes the entry.  The counter is untouched. -/
def delete_user (db : DB) (user_id : Nat) : Except ApiError DB :=
  if dictContains db.users user_id then
    .ok ⟨dictDel db.users user_id, db.next_id⟩
  else
    .error .notFound

/-- One client request against the mutating endpoints. -/
inductive Op where
  | create (p : UserCreate)
  | update (id : Nat) (p : UserUpdate)
  | delete (id : Nat)
deriving DecidableEq, Repr

/-- The state after serving one request: a raised `HTTPException` leaves
the module state untouched (every `raise` in the handlers happens before
any mutation). -/
def applyOp (db : DB) (op : Op) : DB :=
  match op with
  | .create p =>
      match create_user db p with
      | .ok (_, db') => db'
      | .error _ => db
  | .update i p =>
      match update_user db i p with
      | .ok (_, db') => db'
      | .error _ => db
  | .delete i =>
      match delete_user db i with
      | .ok db' => db'
      | .error _ => db

/-- The state after serving a whole request sequence from startup. -/
def runOps (ops : List Op) : DB := ops.foldl applyOp initDB

/-- The id handed out by a request, when it is a successful create. -/
def createdId (db : DB) (op : Op) : Option Nat :=
  match op with
  | .create p =>
      match create_user db p with
      | .ok (u, _) => some u.id
      | .error _ => none
  | _ => none

/-- Ids assigned by the successful creates of a request sequence run from
`db`, in request order. -/
def assignedIdsAux : DB → List Op → List Nat
  | _, [] => []
  | db, op :: rest =>
      match createdId db op with
      | some i => i :: assignedIdsAux (applyOp db op) rest
      | none => assignedIdsAux (applyOp db op) rest

/-- Ids assigned by the successful creates of a request sequence run from
startup, in request order. -/
def assignedIds (ops : List Op) : List Nat := assignedIdsAux initDB ops

/-- The keys of the store, in insertion order. -/
def keysOf (d : Store) : List Nat := d.map Prod.fst

/-- The emails of the stored records, in insertion order. -/
def emailsOf (d : Store) : List String := d.map (fun p => p.2.email)

/-- The state invariant maintained by the handlers: keys strictly increase
in insertion order, stay below the counter and start at 1, every record
carries its own key as `id`, no two stored records share an email, and the
counter is at least 1. -/
structure WF (db : DB) : Prop where
  keys_sorted : List.Pairwise (fun a b => a < b) (keysOf db.users)
  keys_lt : ∀ p ∈ db.users, p.1 < db.next_id
  id_eq_key : ∀ p ∈ db.users, p.2.id = p.1
  keys_pos : ∀ p ∈ db.users, 1 ≤ p.1
  emails_nodup : (emailsOf db.users).Nodup
  next_pos : 1 ≤ db.next_id

/-! ## Basic lemmas about the dict operations -/

theorem keysOf_cons (p : Nat × User) (t : Store) :
    keysOf (p :: t) = p.1 :: keysOf t := rfl

theorem emailsOf_cons (p : Nat × User) (t : Store) :
    emailsOf (p :: t) = p.2.email :: emailsOf t := rfl

theorem dictValues_cons (p : Nat × User) (t : Store) :
    dictValues (p :: t) = p.2 :: dictValues t := rfl

theorem dictGet_dictSet_self (d : Store) (k : Nat) (v : User) :
    dictGet (dictSet d k v) k = some v := by
  induction d with
  | nil => simp [dictSet, dictGet]
  | cons p t ih =>
      obtain ⟨k', v'⟩ := p
      by_cases h : k' = k
      · simp [dictSet, dictGet, h]
      · simp [dictSet, dictGet, h, ih]

theorem dictGet_mem {d : Store} {k : Nat} {u : User}
    (h : dictGet d k = some u) : (k, u) ∈ d := by
  induction d with
  | nil => simp [dictGet] at h
  | cons p t ih =>
      obtain ⟨k', v'⟩ := p
      by_cases hk : k' = k
      · simp [dictGet, hk] at h
        subst hk h
        exact List.mem_cons_self _ _
      · simp [dictGet, hk] at h
        exact List.mem_cons_of_mem _ (ih h)

theorem dictContains_of_get {d : Store} {k : Nat} {u : User}
    (h : dictGet d k = some u) : dictContains d k = true := by
  induction d with
  | nil => simp [dictGet] at h
  | cons p t ih =>
      obtain ⟨k', v'⟩ := p
      by_cases hk : k' = k
      · simp [dictContains, hk]
      · simp [dictGet, hk] at h
        simp [dictContains, hk, ih h]

theorem dictContains_iff (d : Store) (k : Nat) :
    dictContains d k = true ↔ k ∈ keysOf d := by
  induction d with
  | nil => simp [dictContains, keysOf]
  | cons p t ih =>
      obtain ⟨k', v'⟩ := p
      by_cases hk : k' = k
      · simp [dictContains, keysOf_cons, hk]
      · simp [dictContains, keysOf_cons, hk, ih, Ne.symm hk]

theorem dictSet_of_not_contains {d : Store} {k : Nat} (v : User)
    (h : dictContains d k = false) : dictSet d k v = d ++ [(k, v)] := by
  induction d with
  | nil => simp [dictSet]
  | cons p t ih =>
      obtain ⟨k', v'⟩ := p
      simp [dictContains] at h
      simp [dictSet, h.1, ih h.2]

theorem dictSet_self_of_get {d : Store} {k : Nat} {u : User}
    (h : dictGet d k = some u) : dictSet d k u = d := by
  induction d with
  | nil => simp [dictGet] at h
  | cons p t ih =>
      obtain ⟨k', v'⟩ := p
      by_cases hk : k' = k
      · simp [dictGet, hk] at h
        simp [dictSet, hk, h]
      · simp [dictGet, hk] at h
        simp [dictSet, hk, ih h]

theorem mem_dictSet {d : Store} {k : Nat} {v : User} {p : Nat × User}
    (h : p ∈ dictSet d k v) : p = (k, v) ∨ p ∈ d := by
  induction d with
  | nil => simpa [dictSet] using h
  | cons q t ih =>
      obtain ⟨k', v'⟩ := q
      by_cases hk : k' = k
      · simp [dictSet, hk] at h
        rcases h with h | h
        · exact Or.inl h
        · exact Or.inr (List.mem_cons_of_mem _ h)
      · simp [dictSet, hk] at h
        rcases h with h | h
        · exact Or.inr (by simp [h])
        · rcases ih h with h' | h'
          · exact Or.inl h'
          · exact Or.inr (List.mem_cons_of_mem _ h')

theorem keysOf_dictSet_of_contains {d : Store} {k : Nat} (v : User)
    (h : dictContains d k = true) : keysOf (dictSet d k v) = keysOf d := by
  induction d with
  | nil => simp [dictContains] at h
  | cons p t ih =>
      obtain ⟨k', v'⟩ := p
      by_cases hk : k' = k
      · simp [dictSet, keysOf, hk]
      · simp [dictContains, hk] at h
        simp [dictSet, keysOf, hk] at ih ⊢
        exact ih h

theorem dictDel_sublist (d : Store) (k : Nat) : List.Sublist (dictDel d k) d := by
  induction d with
  | nil => simp [dictDel]
  | cons p t ih =>
      obtain ⟨k', v'⟩ := p
      by_cases hk : k' = k
      · simp [dictDel, hk]
      · simpa [dictDel, hk] using ih.cons₂ (k', v')

theorem dictGet_dictDel_self (d : Store) (k : Nat)
    (hnd : (keysOf d).Nodup) : dictGet (dictDel d k) k = none := by
  induction d with
  | nil => simp [dictDel, dictGet]
  | cons p t ih =>
      obtain ⟨k', v'⟩ := p
      rw [keysOf_cons, List.nodup_cons] at hnd
      by_cases hk : k' = k
      · subst hk
        cases hg : dictGet t k' with
        | none => simp [dictDel, hg]
        | some u =>
            have : k' ∈ keysOf t := by
              simpa [keysOf] using List.mem_map_of_mem Prod.fst (dictGet_mem hg)
            exact absurd this hnd.1
      · simp [dictDel, dictGet, hk]
        exact ih hnd.2

theorem any_email_eq_false {d : Store} {e : String}
    (h : (dictValues d).any (fun u => u.email == e) = false) :
    ∀ u ∈ dictValues d, u.email ≠ e := by
  intro u hu
  have h2 := List.any_eq_false.mp h u hu
  simpa using h2

theorem mem_emailsOf_iff {d : Store} {e : String} :
    e ∈ emailsOf d ↔ ∃ p ∈ d, p.2.email = e := by
  simp [emailsOf]

theorem mem_emailsOf {d : Store} {e : String} :
    e ∈ emailsOf d ↔ ∃ u ∈ dictValues d, u.email = e := by
  constructor
  · intro h
    rw [emailsOf, List.mem_map] at h
    obtain ⟨p, hp, he⟩ := h
    exact ⟨p.2, List.mem_map_of_mem Prod.snd hp, he⟩
  · intro ⟨u, hu, he⟩
    rw [dictValues, List.mem_map] at hu
    obtain ⟨p, hp, hpu⟩ := hu
    rw [emailsOf, List.mem_map]
    exact ⟨p, hp, by rw [hpu, he]⟩

theorem mem_values_of_get {d : Store} {k : Nat} {u : User}
    (h : dictGet d k = some u) : u ∈ dictValues d :=
  List.mem_map_of_mem Prod.snd (dictGet_mem h)

/-- Overwriting the record at a live key preserves pairwise-distinct emails
when the new email either equals that record's current email or collides
with no stored record. -/
theorem emails_nodup_dictSet {d : Store} {k : Nat} {user v : User}
    (hnd : (keysOf d).Nodup)
    (hget : dictGet d k = some user)
    (he : (emailsOf d).Nodup)
    (hok : v.email = user.email ∨ ∀ w ∈ dictValues d, w.email ≠ v.email) :
    (emailsOf (dictSet d k v)).Nodup := by
  induction d with
  | nil => simp [dictGet] at hget
  | cons p t ih =>
      obtain ⟨k', u'⟩ := p
      rw [keysOf_cons, List.nodup_cons] at hnd
      rw [emailsOf_cons, List.nodup_cons] at he
      by_cases hk : k' = k
      · simp [dictGet, hk] at hget
        subst hget
        simp only [dictSet, hk, beq_self_eq_true, if_true, emailsOf_cons,
          List.nodup_cons]
        refine ⟨?_, he.2⟩
        rcases hok with h | h
        · rw [h]; exact he.1
        · intro hmem
          rw [mem_emailsOf] at hmem
          obtain ⟨w, hw, hwe⟩ := hmem
          exact h w (by rw [dictValues_cons]; exact List.mem_cons_of_mem _ hw)
            hwe
      · simp only [dictGet, beq_iff_eq, hk, if_false] at hget
        simp only [dictSet, beq_iff_eq, hk, if_false, emailsOf_cons,
          List.nodup_cons]
        refine ⟨?_, ih hnd.2 hget he.2 ?_⟩
        · intro hmem
          rw [mem_emailsOf_iff] at hmem
          obtain ⟨q, hq, hqe⟩ := hmem
          rcases mem_dictSet hq with h' | h'
          · subst h'
            rcases hok with h | h
            · apply he.1
              rw [mem_emailsOf_iff]
              exact ⟨(k, user), dictGet_mem hget, by rw [← hqe, h]⟩
            · exact h u' (by rw [dictValues_cons]; exact List.mem_cons_self _ _)
                (by rw [← hqe])
          · exact he.1 (mem_emailsOf_iff.mpr ⟨q, h', hqe⟩)
        · rcases hok with h | h
          · exact Or.inl h
          · exact Or.inr fun w hw =>
              h w (by rw [dictValues_cons]; exact List.mem_cons_of_mem _ hw)

/-! ## Shape of each operation's success and failure -/

theorem create_user_ok {db : DB} {p : UserCreate} {u : User} {db' : DB}
    (h : create_user db p = .ok (u, db')) :
    ((dictValues db.users).any (fun v => v.email == p.email)) = false ∧
      u = ⟨db.next_id, p.name, p.email⟩ ∧
      db' = ⟨dictSet db.users db.next_id ⟨db.next_id, p.name, p.email⟩,
        db.next_id + 1⟩ := by
  unfold create_user at h
  split at h
  · cases h
  · cases h
    rename_i hany
    exact ⟨Bool.not_eq_true _ |>.mp hany, rfl, rfl⟩

theorem update_user_ok {db : DB} {i : Nat} {p : UserUpdate} {u : User}
    {db' : DB} (h : update_user db i p = .ok (u, db')) :
    ∃ user, dictGet db.users i = some user ∧
      ((p.email.getD user.email) != user.email
        && (dictValues db.users).any
          (fun v => v.email == p.email.getD user.email)) = false ∧
      u = ⟨i, p.name.getD user.name, p.email.getD user.email⟩ ∧
      db' = ⟨dictSet db.users i ⟨i, p.name.getD user.name,
        p.email.getD user.email⟩, db.next_id⟩ := by
  unfold update_user at h
  split at h
  · cases h
  · rename_i user hget
    dsimp only at h
    split at h
    · cases h
    · cases h
      rename_i hguard
      exact ⟨user, hget, Bool.not_eq_true _ |>.mp hguard, rfl, rfl⟩

theorem delete_user_ok {db : DB} {i : Nat} {db' : DB}
    (h : delete_user db i = .ok db') :
    dictContains db.users i = true ∧
      db' = ⟨dictDel db.users i, db.next_id⟩ := by
  unfold delete_user at h
  split at h
  · cases h
    rename_i hc
    exact ⟨hc, rfl⟩
  · cases h

/-! ## Preservation of the state invariant -/

theorem keysOf_append (d₁ d₂ : Store) :
    keysOf (d₁ ++ d₂) = keysOf d₁ ++ keysOf d₂ := List.map_append _ _ _

theorem emailsOf_append (d₁ d₂ : Store) :
    emailsOf (d₁ ++ d₂) = emailsOf d₁ ++ emailsOf d₂ := List.map_append _ _ _

theorem WF_create {db : DB} {p : UserCreate} {u : User} {db' : DB}
    (hwf : WF db) (h : create_user db p = .ok (u, db')) : WF db' := by
  obtain ⟨hany, hu, hdb⟩ := create_user_ok h
  have hfresh := any_email_eq_false hany
  have hnotc : dictContains db.users db.next_id = false := by
    cases hc : dictContains db.users db.next_id with
    | false => rfl
    | true =>
        rw [dictContains_iff, keysOf, List.mem_map] at hc
        obtain ⟨q, hq, hq1⟩ := hc
        exact absurd (hq1 ▸ hwf.keys_lt q hq) (lt_irrefl _)
  rw [dictSet_of_not_contains _ hnotc] at hdb
  subst hdb
  constructor
  · rw [keysOf_append]
    rw [List.pairwise_append]
    refine ⟨hwf.keys_sorted, List.pairwise_singleton _ _, ?_⟩
    intro a ha b hb
    rw [keysOf, List.mem_map] at ha
    obtain ⟨q, hq, hq1⟩ := ha
    simp [keysOf] at hb
    rw [hb, ← hq1]
    exact hwf.keys_lt q hq
  · intro q hq
    rcases List.mem_append.mp hq with h' | h'
    · exact Nat.lt_succ_of_lt (hwf.keys_lt q h')
    · simp at h'
      rw [h']
      exact Nat.lt_succ_self _
  · intro q hq
    rcases List.mem_append.mp hq with h' | h'
    · exact hwf.id_eq_key q h'
    · simp at h'
      rw [h']
  · intro q hq
    rcases List.mem_append.mp hq with h' | h'
    · exact hwf.keys_pos q h'
    · simp at h'
      rw [h']
      exact hwf.next_pos
  · rw [emailsOf_append, List.nodup_append]
    refine ⟨hwf.emails_nodup, List.nodup_singleton _, ?_⟩
    intro e he hmem
    simp [emailsOf] at hmem
    rw [mem_emailsOf] at he
    obtain ⟨w, hw, hwe⟩ := he
    exact hfresh w hw (by rw [hwe, hmem])
  · exact Nat.le_succ_of_le hwf.next_pos

theorem keys_nodup_of_WF {db : DB} (hwf : WF db) : (keysOf db.users).Nodup :=
  hwf.keys_sorted.imp (fun h => Nat.ne_of_lt h)

theorem WF_update {db : DB} {i : Nat} {p : UserUpdate} {u : User} {db' : DB}
    (hwf : WF db) (h : update_user db i p = .ok (u, db')) : WF db' := by
  obtain ⟨user, hget, hguard, hu, hdb⟩ := update_user_ok h
  have hc : dictContains db.users i = true := dictContains_of_get hget
  have hmem : (i, user) ∈ db.users := dictGet_mem hget
  subst hdb
  constructor
  · rw [keysOf_dictSet_of_contains _ hc]
    exact hwf.keys_sorted
  · intro q hq
    rcases mem_dictSet hq with h' | h'
    · rw [h']
      exact hwf.keys_lt (i, user) hmem
    · exact hwf.keys_lt q h'
  · intro q hq
    rcases mem_dictSet hq with h' | h'
    · rw [h']
    · exact hwf.id_eq_key q h'
  · intro q hq
    rcases mem_dictSet hq with h' | h'
    · rw [h']
      exact hwf.keys_pos (i, user) hmem
    · exact hwf.keys_pos q h'
  · apply emails_nodup_dictSet (keys_nodup_of_WF hwf) hget hwf.emails_nodup
    by_cases hee : p.email.getD user.email = user.email
    · exact Or.inl hee
    · right
      have hbne : (p.email.getD user.email != user.email) = true := by
        simpa using hee
      rw [hbne, Bool.true_and] at hguard
      exact any_email_eq_false hguard
  · exact hwf.next_pos

theorem emailsOf_sublist {d₁ d₂ : Store} (h : List.Sublist d₁ d₂) :
    List.Sublist (emailsOf d₁) (emailsOf d₂) := h.map _

theorem keysOf_sublist {d₁ d₂ : Store} (h : List.Sublist d₁ d₂) :
    List.Sublist (keysOf d₁) (keysOf d₂) := h.map _

theorem WF_delete {db : DB} {i : Nat} {db' : DB}
    (hwf : WF db) (h : delete_user db i = .ok db') : WF db' := by
  obtain ⟨hc, hdb⟩ := delete_user_ok h
  subst hdb
  have hsub := dictDel_sublist db.users i
  constructor
  · exact hwf.keys_sorted.sublist (keysOf_sublist hsub)
  · exact fun q hq => hwf.keys_lt q (hsub.subset hq)
  · exact fun q hq => hwf.id_eq_key q (hsub.subset hq)
  · exact fun q hq => hwf.keys_pos q (hsub.subset hq)
  · exact hwf.emails_nodup.sublist (emailsOf_sublist hsub)
  · exact hwf.next_pos

theorem WF_applyOp {db : DB} (op : Op) (hwf : WF db) : WF (applyOp db op) := by
  cases op with
  | create p =>
      cases h : create_user db p with
      | ok r =>
          obtain ⟨u, db'⟩ := r
          simpa [applyOp, h] using WF_create hwf h
      | error e => simpa [applyOp, h] using hwf
  | update i p =>
      cases h : update_user db i p with
      | ok r =>
          obtain ⟨u, db'⟩ := r
          simpa [applyOp, h] using WF_update hwf h
      | error e => simpa [applyOp, h] using hwf
  | delete i =>
      cases h : delete_user db i with
      | ok db' => simpa [applyOp, h] using WF_delete hwf h
      | error e => simpa [applyOp, h] using hwf

theorem WF_initDB : WF initDB := by
  constructor <;> simp [initDB, keysOf, emailsOf]

theorem WF_foldl {db : DB} (ops : List Op) (hwf : WF db) :
    WF (ops.foldl applyOp db) := by
  induction ops generalizing db with
  | nil => exact hwf
  | cons op rest ih => exact ih (WF_applyOp op hwf)

/-- Every state reachable from startup satisfies the invariant. -/
theorem WF_runOps (ops : List Op) : WF (runOps ops) :=
  WF_foldl ops WF_initDB

/-! ## The id counter along a run -/

theorem next_id_applyOp_update (db : DB) (i : Nat) (p : UserUpdate) :
    (applyOp db (.update i p)).next_id = db.next_id := by
  cases h : update_user db i p with
  | ok r =>
      obtain ⟨u, db'⟩ := r
      obtain ⟨user, _, _, _, hdb⟩ := update_user_ok h
      simp [applyOp, h, hdb]
  | error e => simp [applyOp, h]

theorem next_id_applyOp_delete (db : DB) (i : Nat) :
    (applyOp db (.delete i)).next_id = db.next_id := by
  cases h : delete_user db i with
  | ok db' =>
      obtain ⟨_, hdb⟩ := delete_user_ok h
      simp [applyOp, h, hdb]
  | error e => simp [applyOp, h]

theorem createdId_some {db : DB} {op : Op} {i : Nat}
    (h : createdId db op = some i) :
    i = db.next_id ∧ (applyOp db op).next_id = db.next_id + 1 := by
  cases op with
  | create p =>
      cases hc : create_user db p with
      | ok r =>
          obtain ⟨u, db'⟩ := r
          obtain ⟨_, hu, hdb⟩ := create_user_ok hc
          simp [createdId, hc] at h
          refine ⟨?_, by simp [applyOp, hc, hdb]⟩
          rw [← h, hu]
      | error e => simp [createdId, hc] at h
  | update i' p => simp [createdId] at h
  | delete i' => simp [createdId] at h

theorem createdId_none {db : DB} {op : Op}
    (h : createdId db op = none) :
    (applyOp db op).next_id = db.next_id := by
  cases op with
  | create p =>
      cases hc : create_user db p with
      | ok r =>
          obtain ⟨u, db'⟩ := r
          simp [createdId, hc] at h
      | error e => simp [applyOp, hc]
  | update i p => exact next_id_applyOp_update db i p
  | delete i => exact next_id_applyOp_delete db i

/-- From any state, the ids handed out by the successful creates of a run
are exactly the consecutive integers starting at the state's counter. -/
theorem assignedIdsAux_eq_range (ops : List Op) :
    ∀ db : DB, assignedIdsAux db ops =
      List.range' db.next_id (assignedIdsAux db ops).length := by
  induction ops with
  | nil => intro db; simp [assignedIdsAux]
  | cons op rest ih =>
      intro db
      cases h : createdId db op with
      | some i =>
          obtain ⟨hi, hnext⟩ := createdId_some h
          simp only [assignedIdsAux, h, List.length_cons, List.range'_succ]
          rw [hi, ← hnext]
          exact congrArg (db.next_id :: ·) (ih (applyOp db op))
      | none =>
          simp only [assignedIdsAux, h]
          rw [← createdId_none h]
          exact ih (applyOp db op)

/-! ## Further dict lemmas used by the claims -/

theorem dictGet_of_mem_nodup {d : Store} {k : Nat} {u : User}
    (hnd : (keysOf d).Nodup) (h : (k, u) ∈ d) : dictGet d k = some u := by
  induction d with
  | nil => simp at h
  | cons p t ih =>
      obtain ⟨k', v'⟩ := p
      rw [keysOf_cons, List.nodup_cons] at hnd
      rcases List.mem_cons.mp h with h' | h'
      · obtain ⟨h1, h2⟩ := Prod.mk.injEq .. ▸ h'
        simp_all [dictGet]
      · have hk : k' ≠ k := by
          intro he
          apply hnd.1
          rw [he, keysOf, List.mem_map]
          exact ⟨(k, u), h', rfl⟩
        simp [dictGet, hk]
        exact ih hnd.2 h'

theorem map_id_of_no_key {d : Store} {k : Nat} (v : User)
    (h : ∀ p ∈ d, p.1 ≠ k) :
    d.map (fun p => if p.1 == k then (k, v) else p) = d := by
  induction d with
  | nil => rfl
  | cons q t ih =>
      have hq : q.1 ≠ k := h q (List.mem_cons_self _ _)
      rw [List.map_cons, if_neg (by simp [hq]),
        ih fun p hp => h p (List.mem_cons_of_mem _ hp)]

/-- With pairwise-distinct keys, overwriting a live key acts pointwise:
each entry keeps its position, and only the entry at that key changes. -/
theorem dictSet_eq_map {d : Store} {k : Nat} (v : User)
    (hnd : (keysOf d).Nodup) (hc : dictContains d k = true) :
    dictSet d k v = d.map (fun p => if p.1 == k then (k, v) else p) := by
  induction d with
  | nil => simp [dictContains] at hc
  | cons p t ih =>
      obtain ⟨k', v'⟩ := p
      rw [keysOf_cons, List.nodup_cons] at hnd
      by_cases hk : k' = k
      · subst hk
        have ht : ∀ p ∈ t, p.1 ≠ k' := by
          intro p hp he
          apply hnd.1
          rw [keysOf, List.mem_map]
          exact ⟨p, hp, he⟩
        have hset : dictSet ((k', v') :: t) k' v = (k', v) :: t := by
          simp [dictSet]
        rw [hset, List.map_cons, if_pos (by simp), map_id_of_no_key v ht]
      · have hk' : (k' == k) = false := by simpa using hk
        rw [dictContains, hk', Bool.false_or] at hc
        have hset : dictSet ((k', v') :: t) k v = (k', v') :: dictSet t k v := by
          simp [dictSet, hk]
        rw [hset, List.map_cons, if_neg (by simp [hk]), ih hnd.2 hc]

theorem dictGet_none_iff (d : Store) (k : Nat) :
    dictGet d k = none ↔ dictContains d k = false := by
  induction d with
  | nil => simp [dictGet, dictContains]
  | cons p t ih =>
      obtain ⟨k', v'⟩ := p
      by_cases hk : k' = k
      · simp [dictGet, dictContains, hk]
      · simp [dictGet, dictContains, hk, ih]

/-! ## The claims -/

/-- Claim C1: in every state of the store reachable by any sequence of
create, update and delete operations starting from the empty store, no two
live records have the same email, where emails are compared by
case-sensitive exact string equality. -/
theorem C1_email_unique (ops : List Op) :
    List.Pairwise (fun u v : User => u.email ≠ v.email)
      (list_users (runOps ops)) := by
  have h := (WF_runOps ops).emails_nodup
  rw [emailsOf, List.Nodup, List.pairwise_map] at h
  rw [list_users, dictValues, List.pairwise_map]
  exact h

/-- Claim C2: across any request sequence from startup, the ids handed out
by successive successful creates are exactly the consecutive integers
starting at 1; hence they are strictly increasing and an id is never
assigned twice, even after the record bearing it has been deleted, and each
new id is the maximum ever-assigned id plus one. -/
theorem C2_ids_monotonic (ops : List Op) :
    assignedIds ops = List.range' 1 (assignedIds ops).length ∧
      List.Pairwise (· < ·) (assignedIds ops) ∧
      (assignedIds ops).Nodup := by
  have h : assignedIds ops = List.range' 1 (assignedIds ops).length := by
    simpa [assignedIds, initDB] using assignedIdsAux_eq_range ops initDB
  refine ⟨h, ?_, ?_⟩
  · rw [h]
    exact List.pairwise_lt_range' _ _
  · rw [h]
    exact List.nodup_range' _ _

/-- Claim C4: whenever create, update or delete fails with a domain error
(NotFound or DuplicateEmail), the whole store state — record map and
next-id counter — is exactly as before the request; no partial mutation is
ever applied. -/
theorem C4_error_no_mutation (db : DB) :
    (∀ p e, create_user db p = .error e → applyOp db (.create p) = db) ∧
      (∀ i p e, update_user db i p = .error e →
        applyOp db (.update i p) = db) ∧
      (∀ i e, delete_user db i = .error e → applyOp db (.delete i) = db) := by
  refine ⟨?_, ?_, ?_⟩
  · intro p e h
    simp [applyOp, h]
  · intro i p e h
    simp [applyOp, h]
  · intro i e h
    simp [applyOp, h]

/-- Witness for C4 at a concrete state: deleting an absent id leaves the
state untouched. -/
theorem C4_witness :
    applyOp ⟨[(1, ⟨1, "A", "a@x"⟩)], 2⟩ (Op.delete 5) =
      ⟨[(1, ⟨1, "A", "a@x"⟩)], 2⟩ :=
  (C4_error_no_mutation ⟨[(1, ⟨1, "A", "a@x"⟩)], 2⟩).2.2 5
    ApiError.notFound rfl

/-- Claim C3: if `create(n1, e)` succeeds, then for every name `n2` an
immediately following `create(n2, e)` with the same email fails with
DuplicateEmail, the failing request leaves the state untouched, and the
record created by the first call remains live and unchanged. -/
theorem C3_duplicate_create (db : DB) (n1 n2 e : String) (u : User)
    (db' : DB) (h : create_user db ⟨n1, e⟩ = .ok (u, db')) :
    create_user db' ⟨n2, e⟩ = .error .duplicateEmail ∧
      applyOp db' (.create ⟨n2, e⟩) = db' ∧
      dictGet db'.users u.id = some u := by
  obtain ⟨hany, hu, hdb⟩ := create_user_ok h
  subst hu hdb
  have hget : dictGet
      (dictSet db.users db.next_id ⟨db.next_id, n1, e⟩) db.next_id =
      some ⟨db.next_id, n1, e⟩ := dictGet_dictSet_self _ _ _
  have hany2 : (dictValues
      (dictSet db.users db.next_id ⟨db.next_id, n1, e⟩)).any
      (fun v => v.email == e) = true :=
    List.any_eq_true.mpr ⟨_, mem_values_of_get hget, by simp⟩
  have herr : create_user
      (⟨dictSet db.users db.next_id ⟨db.next_id, n1, e⟩, db.next_id + 1⟩ : DB)
      ⟨n2, e⟩ = .error .duplicateEmail := by
    unfold create_user
    rw [if_pos hany2]
  exact ⟨herr, by simp [applyOp, herr], hget⟩

/-- Witness for C3: after creating "A" with email "a@x" from startup,
creating "B" with the same email fails with DuplicateEmail, mutates
nothing, and the first record is still stored unchanged. -/
theorem C3_witness :
    create_user ⟨[(1, ⟨1, "A", "a@x"⟩)], 2⟩ ⟨"B", "a@x"⟩ =
        .error .duplicateEmail ∧
      applyOp ⟨[(1, ⟨1, "A", "a@x"⟩)], 2⟩ (.create ⟨"B", "a@x"⟩) =
        ⟨[(1, ⟨1, "A", "a@x"⟩)], 2⟩ ∧
      dictGet [(1, ⟨1, "A", "a@x"⟩)] (User.id ⟨1, "A", "a@x"⟩) =
        some ⟨1, "A", "a@x"⟩ :=
  C3_duplicate_create initDB "A" "B" "a@x" ⟨1, "A", "a@x"⟩
    ⟨[(1, ⟨1, "A", "a@x"⟩)], 2⟩ rfl

/-- Claim C8: for valid inputs (name non-empty and at most 100 characters)
such that the create succeeds and returns record `u`, an immediately
following get of `u.id` succeeds and returns a record equal to `u`. -/
theorem C8_create_then_get (db : DB) (name email : String) (u : User)
    (db' : DB) (_hne : 0 < name.length) (_hlen : name.length ≤ 100)
    (h : create_user db ⟨name, email⟩ = .ok (u, db')) :
    get_user db' u.id = .ok u := by
  obtain ⟨hany, hu, hdb⟩ := create_user_ok h
  subst hu hdb
  show get_user _ db.next_id = _
  unfold get_user
  rw [show (⟨dictSet db.users db.next_id ⟨db.next_id, name, email⟩,
    db.next_id + 1⟩ : DB).users =
    dictSet db.users db.next_id ⟨db.next_id, name, email⟩ from rfl]
  rw [dictGet_dictSet_self]

/-- Witness for C8 at a concrete input: create "A"/"a@x" from startup, then
get id 1. -/
theorem C8_witness :
    0 < "A".length ∧ "A".length ≤ 100 ∧
      get_user ⟨[(1, ⟨1, "A", "a@x"⟩)], 2⟩ (User.id ⟨1, "A", "a@x"⟩) =
        .ok ⟨1, "A", "a@x"⟩ :=
  ⟨by decide, by decide,
    C8_create_then_get initDB "A" "a@x" ⟨1, "A", "a@x"⟩
      ⟨[(1, ⟨1, "A", "a@x"⟩)], 2⟩ (by decide) (by decide) rfl⟩

/-- Claim C6: an update of a live record whose resolved email equals the
record's current email (in particular, supplying the record's own email)
never fails with DuplicateEmail — it succeeds regardless of the emails of
the other live records. -/
theorem C6_self_email_update (db : DB) (user_id : Nat) (payload : UserUpdate)
    (user : User) (hget : dictGet db.users user_id = some user)
    (hsame : payload.email.getD user.email = user.email) :
    update_user db user_id payload =
      .ok (⟨user_id, payload.name.getD user.name, user.email⟩,
        ⟨dictSet db.users user_id
          ⟨user_id, payload.name.getD user.name, user.email⟩,
          db.next_id⟩) := by
  unfold update_user
  rw [hget]
  dsimp only
  rw [hsame, bne_self_eq_false, Bool.false_and, if_neg (by simp)]

/-- Witness for C6: with two live records, updating record 2 while
re-supplying its own email succeeds even though record 1 holds a different
email. -/
theorem C6_witness :
    update_user ⟨[(1, ⟨1, "A", "a@x"⟩), (2, ⟨2, "B", "b@x"⟩)], 3⟩ 2
        ⟨some "B2", some "b@x"⟩ =
      .ok (⟨2, "B2", "b@x"⟩,
        ⟨dictSet [(1, ⟨1, "A", "a@x"⟩), (2, ⟨2, "B", "b@x"⟩)] 2
          ⟨2, "B2", "b@x"⟩, 3⟩) :=
  C6_self_email_update ⟨[(1, ⟨1, "A", "a@x"⟩), (2, ⟨2, "B", "b@x"⟩)], 3⟩ 2
    ⟨some "B2", some "b@x"⟩ ⟨2, "B", "b@x"⟩ rfl rfl

/-- Claim C7: for every live record, an update with no fields supplied
succeeds and is a complete no-op: it returns the record exactly as stored
and leaves the whole state — that record, every other record, and the
counter — unchanged. -/
theorem C7_empty_update_noop (ops : List Op) (user_id : Nat) (user : User)
    (hget : dictGet (runOps ops).users user_id = some user) :
    update_user (runOps ops) user_id ⟨none, none⟩ =
      .ok (user, runOps ops) := by
  have hid : user.id = user_id :=
    (WF_runOps ops).id_eq_key _ (dictGet_mem hget)
  have huser : (⟨user_id, user.name, user.email⟩ : User) = user := by
    rw [← hid]
  unfold update_user
  rw [hget]
  dsimp only
  rw [Option.getD_none, Option.getD_none, bne_self_eq_false, Bool.false_and,
    if_neg (by simp), huser, dictSet_self_of_get hget]

/-- Witness for C7: after creating one record, an empty update of id 1
returns it unchanged together with the unchanged state. -/
theorem C7_witness :
    update_user (runOps [.create ⟨"A", "a@x"⟩]) 1 ⟨none, none⟩ =
      .ok (⟨1, "A", "a@x"⟩, runOps [.create ⟨"A", "a@x"⟩]) :=
  C7_empty_update_noop [.create ⟨"A", "a@x"⟩] 1 ⟨1, "A", "a@x"⟩ rfl

/-- Claim C9: deleting a live id succeeds and permanently removes the
record, so that a following get of the same id fails with NotFound; and
deleting an id that holds no live record fails with NotFound. -/
theorem C9_delete_removes (ops : List Op) (user_id : Nat) :
    (∀ user, dictGet (runOps ops).users user_id = some user →
      delete_user (runOps ops) user_id =
        .ok ⟨dictDel (runOps ops).users user_id, (runOps ops).next_id⟩ ∧
      get_user ⟨dictDel (runOps ops).users user_id, (runOps ops).next_id⟩
        user_id = .error .notFound) ∧
    (dictGet (runOps ops).users user_id = none →
      delete_user (runOps ops) user_id = .error .notFound) := by
  constructor
  · intro user hget
    have hc := dictContains_of_get hget
    constructor
    · unfold delete_user
      rw [if_pos hc]
    · unfold get_user
      rw [show (⟨dictDel (runOps ops).users user_id,
        (runOps ops).next_id⟩ : DB).users =
        dictDel (runOps ops).users user_id from rfl]
      rw [dictGet_dictDel_self _ _ (keys_nodup_of_WF (WF_runOps ops))]
  · intro hnone
    unfold delete_user
    rw [if_neg (by simp [(dictGet_none_iff _ _).mp hnone])]

/-- Witness for C9: after creating one record, deleting id 1 succeeds and a
following get of id 1 is NotFound, while deleting the absent id 2 is
NotFound. -/
theorem C9_witness :
    (delete_user (runOps [.create ⟨"A", "a@x"⟩]) 1 =
        .ok ⟨dictDel (runOps [.create ⟨"A", "a@x"⟩]).users 1,
          (runOps [.create ⟨"A", "a@x"⟩]).next_id⟩ ∧
      get_user ⟨dictDel (runOps [.create ⟨"A", "a@x"⟩]).users 1,
        (runOps [.create ⟨"A", "a@x"⟩]).next_id⟩ 1 = .error .notFound) ∧
      delete_user (runOps [.create ⟨"A", "a@x"⟩]) 2 = .error .notFound :=
  ⟨(C9_delete_removes [.create ⟨"A", "a@x"⟩] 1).1 ⟨1, "A", "a@x"⟩ rfl,
    (C9_delete_removes [.create ⟨"A", "a@x"⟩] 2).2 rfl⟩

/-- Claim C5: `list` reads the state and nothing else (it is a pure
function of the store), and returns all live records — membership in the
result coincides with being retrievable — in creation order: along the
returned list the ids are strictly increasing, ids being assigned in
creation order; in particular creating A then B then C from startup yields
exactly [A, B, C]. -/
theorem C5_list_order :
    (∀ ops : List Op,
      List.Pairwise (fun u v : User => u.id < v.id)
        (list_users (runOps ops)) ∧
      (∀ u : User, u ∈ list_users (runOps ops) ↔
        dictGet (runOps ops).users u.id = some u)) ∧
    list_users (runOps [.create ⟨"A", "a@x"⟩, .create ⟨"B", "b@x"⟩,
        .create ⟨"C", "c@x"⟩]) =
      [⟨1, "A", "a@x"⟩, ⟨2, "B", "b@x"⟩, ⟨3, "C", "c@x"⟩] := by
  constructor
  · intro ops
    have hwf := WF_runOps ops
    constructor
    · have h := hwf.keys_sorted
      rw [keysOf, List.pairwise_map] at h
      rw [list_users, dictValues, List.pairwise_map]
      refine h.imp_of_mem ?_
      intro p q hp hq hlt
      rw [hwf.id_eq_key p hp, hwf.id_eq_key q hq]
      exact hlt
    · intro u
      constructor
      · intro hu
        rw [list_users, dictValues, List.mem_map] at hu
        obtain ⟨p, hp, hpu⟩ := hu
        have hid : u.id = p.1 := by rw [← hpu]; exact hwf.id_eq_key p hp
        have : (u.id, u) ∈ (runOps ops).users := by
          rw [hid, ← hpu]
          exact hp
        exact dictGet_of_mem_nodup (keys_nodup_of_WF hwf) this
      · intro hu
        exact mem_values_of_get hu
  · decide

/-- Claim C10: a successful update does not move the record in the listing:
the sequence of ids returned by `list` is unchanged index for index (so the
updated record keeps its original creation position and the relative order
of all other records is unchanged), and at each index the listed record is
the old one except at the updated id, where it is the returned record. -/
theorem C10_update_keeps_position (ops : List Op) (user_id : Nat)
    (payload : UserUpdate) (u : User) (db' : DB)
    (h : update_user (runOps ops) user_id payload = .ok (u, db')) :
    (list_users db').map User.id =
      (list_users (runOps ops)).map User.id ∧
    ∀ i v v', (list_users (runOps ops)).get? i = some v →
      (list_users db').get? i = some v' →
      ((v.id = user_id ∧ v' = u) ∨ (v.id ≠ user_id ∧ v' = v)) := by
  have hwf := WF_runOps ops
  obtain ⟨user, hget, hguard, hu, hdb⟩ := update_user_ok h
  have hc := dictContains_of_get hget
  have hmap := dictSet_eq_map
    (⟨user_id, payload.name.getD user.name, payload.email.getD user.email⟩)
    (keys_nodup_of_WF hwf) hc
  have huid : u.id = user_id := by rw [hu]
  subst hdb
  constructor
  · show (dictValues _).map User.id = _
    rw [hmap, dictValues, List.map_map, List.map_map,
      list_users, dictValues, List.map_map]
    apply List.map_congr_left
    intro p hp
    simp only [Function.comp_apply]
    by_cases hk : p.1 = user_id
    · rw [if_pos (by simp [hk])]
      show user_id = p.2.id
      rw [hwf.id_eq_key p hp, hk]
    · rw [if_neg (by simp [hk])]
  · intro i v v' hv hv'
    rw [list_users, dictValues, List.get?_map] at hv
    obtain ⟨p, hp, hpv⟩ : ∃ p, (runOps ops).users.get? i = some p ∧ p.2 = v := by
      cases hq : (runOps ops).users.get? i with
      | none => rw [hq] at hv; cases hv
      | some p =>
          rw [hq] at hv
          exact ⟨p, rfl, by simpa using hv⟩
    have hpmem : p ∈ (runOps ops).users := List.get?_mem hp
    have hvid : v.id = p.1 := by rw [← hpv]; exact hwf.id_eq_key p hpmem
    rw [list_users, dictValues] at hv'
    dsimp only at hv'
    rw [hmap, List.get?_map, List.get?_map, hp] at hv'
    by_cases hk : p.1 = user_id
    · left
      refine ⟨by rw [hvid, hk], ?_⟩
      simp only [Option.map_some', if_pos (by simp [hk] : (p.1 == user_id) = true)] at hv'
      rw [hu]
      exact (Option.some.injEq .. ▸ hv').symm
    · right
      refine ⟨by rw [hvid]; exact hk, ?_⟩
      simp only [Option.map_some', if_neg (by simp [hk] :
        ¬((p.1 == user_id) = true))] at hv'
      rw [← hpv]
      exact (Option.some.injEq .. ▸ hv').symm

/-- Witness for C10: with records A (id 1) and B (id 2), renaming record 1
keeps the listed id sequence unchanged, and at index 1 the listed record is
still B, untouched. -/
theorem C10_witness :
    (list_users ⟨[(1, ⟨1, "A2", "a@x"⟩), (2, ⟨2, "B", "b@x"⟩)], 3⟩).map
        User.id =
      (list_users (runOps [.create ⟨"A", "a@x"⟩,
        .create ⟨"B", "b@x"⟩])).map User.id ∧
    ((User.id ⟨2, "B", "b@x"⟩ = 1 ∧
        (⟨2, "B", "b@x"⟩ : User) = ⟨1, "A2", "a@x"⟩) ∨
      (User.id ⟨2, "B", "b@x"⟩ ≠ 1 ∧
        (⟨2, "B", "b@x"⟩ : User) = ⟨2, "B", "b@x"⟩)) :=
  ⟨(C10_update_keeps_position [.create ⟨"A", "a@x"⟩, .create ⟨"B", "b@x"⟩] 1
      ⟨some "A2", none⟩ ⟨1, "A2", "a@x"⟩
      ⟨[(1, ⟨1, "A2", "a@x"⟩), (2, ⟨2, "B", "b@x"⟩)], 3⟩ rfl).1,
    (C10_update_keeps_position [.create ⟨"A", "a@x"⟩, .create ⟨"B", "b@x"⟩] 1
      ⟨some "A2", none⟩ ⟨1, "A2", "a@x"⟩
      ⟨[(1, ⟨1, "A2", "a@x"⟩), (2, ⟨2, "B", "b@x"⟩)], 3⟩ rfl).2 1
      ⟨2, "B", "b@x"⟩ ⟨2, "B", "b@x"⟩ rfl rfl⟩
